import Mathlib

/-!
Verification of the quiettimetelebot core (src/bot.py): the Bible reference
parser (`BibleReferenceParser.parse`, `_parse_ranges`), the reading-plan
progress engine (`ReadingPlan.get_current_day`, `ReadingPlanManager`), and the
send-window check (`is_time_to_send`).

Modelling conventions for the shallow embedding:
- Python strings are `List Char` (ASCII fragment; the table keys, regex
  classes and all inputs exercised here are ASCII).
- Python `int(s)` on the digit tokens reachable here is `pyInt` (nonempty
  ASCII digit run; Python integers are unbounded, as is `Nat`).
- Wall-clock values (`datetime.now().date()`, `datetime.utcnow()`) are
  explicit parameters: calendar dates as ordinal day numbers (`Int`), UTC
  instants as seconds (`Int`).
- Python float division in `get_plan_progress` is modelled over `ℚ`.
- Exceptions are `Except Unit`; `None` is `Option.none`.
-/

namespace QuietTime

/-- ASCII decimal digit test, the fragment of the regex class matched by the
digit tokens appearing in this program. -/
def isDigitChar (c : Char) : Bool := 48 ≤ c.toNat && c.toNat ≤ 57

/-- ASCII letter test: the character class of the book token in the
scanning pattern. -/
def isAsciiLetter (c : Char) : Bool :=
  (65 ≤ c.toNat && c.toNat ≤ 90) || (97 ≤ c.toNat && c.toNat ≤ 122)

/-- ASCII whitespace as matched between book and ranges in the pattern. -/
def isSpaceChar (c : Char) : Bool :=
  c = ' ' || c = '\t' || c = '\n' || c = '\r' || c.toNat = 11 || c.toNat = 12

/-- Numeric value of a decimal digit character. -/
def digitVal (c : Char) : Nat := c.toNat - 48

/-- Decimal digit character for a value below ten. -/
def digitChar (d : Nat) : Char := Char.ofNat (48 + d)

/-- Value of a big-endian decimal digit string. -/
def digitsVal (cs : List Char) : Nat := cs.foldl (fun a c => a * 10 + digitVal c) 0

/-- Python `int(s)` restricted to the token shapes reachable in this program:
a nonempty run of decimal digits. -/
def pyInt (cs : List Char) : Option Nat :=
  if cs.isEmpty then none
  else if cs.all isDigitChar then some (digitsVal cs) else none

/-- Python `s.split(sep)` for a single-character separator. -/
def splitOnChar (sep : Char) : List Char → List (List Char)
  | [] => [[]]
  | c :: rest =>
    if c = sep then [] :: splitOnChar sep rest
    else
      match splitOnChar sep rest with
      | [] => [[c]]
      | p :: ps => (c :: p) :: ps

/-- Joining parts with a single-character separator (inverse of
`splitOnChar`; used to name the substring matched by the ranges group). -/
def joinSep (sep : Char) : List (List Char) → List Char
  | [] => []
  | [p] => p
  | p :: q :: ps => p ++ sep :: joinSep sep (q :: ps)

/-- Big-endian decimal rendering, auxiliary loop (fuel-driven so that it is
kernel-computable). -/
def natCharsAux : Nat → Nat → List Char → List Char
  | 0, _, acc => acc
  | fuel + 1, n, acc =>
    if n = 0 then acc else natCharsAux fuel (n / 10) (digitChar (n % 10) :: acc)

/-- Python `str(n)` for a nonnegative integer: big-endian decimal digits. -/
def natChars (n : Nat) : List Char :=
  if n = 0 then ['0'] else natCharsAux n n []

theorem splitOnChar_ne_nil (sep : Char) (cs : List Char) : splitOnChar sep cs ≠ [] := by
  induction cs with
  | nil => simp [splitOnChar]
  | cons c rest ih =>
    simp only [splitOnChar]
    split
    · simp
    · cases h : splitOnChar sep rest with
      | nil => simp
      | cons p ps => simp

theorem splitOnChar_eq_single {sep : Char} {p : List Char} (h : sep ∉ p) :
    splitOnChar sep p = [p] := by
  induction p with
  | nil => rfl
  | cons c rest ih =>
    have hc : c ≠ sep := fun he => h (he ▸ List.mem_cons_self c rest)
    have hr : sep ∉ rest := fun hm => h (List.mem_cons_of_mem c hm)
    simp only [splitOnChar, if_neg hc, ih hr]

theorem splitOnChar_append {sep : Char} {p rest : List Char} (h : sep ∉ p) :
    splitOnChar sep (p ++ sep :: rest) = p :: splitOnChar sep rest := by
  induction p with
  | nil =>
    simp [splitOnChar]
  | cons c q ih =>
    have hc : c ≠ sep := fun he => h (he ▸ List.mem_cons_self c q)
    have hq : sep ∉ q := fun hm => h (List.mem_cons_of_mem c hm)
    simp only [List.cons_append, splitOnChar, if_neg hc, List.append_eq, ih hq]

theorem splitOnChar_joinSep {sep : Char} :
    ∀ {ps : List (List Char)}, ps ≠ [] → (∀ p ∈ ps, sep ∉ p) →
      splitOnChar sep (joinSep sep ps) = ps
  | [], hne, _ => absurd rfl hne
  | [p], _, h => by
    simpa [joinSep] using splitOnChar_eq_single (h p (List.mem_singleton_self p))
  | p :: q :: ps, _, h => by
    have hp : sep ∉ p := h p (List.mem_cons_self _ _)
    have hrest : ∀ r ∈ q :: ps, sep ∉ r := fun r hr => h r (List.mem_cons_of_mem p hr)
    have ih := splitOnChar_joinSep (show q :: ps ≠ [] by simp) hrest
    simp only [joinSep, splitOnChar_append hp, ih]

theorem joinSep_splitOnChar (sep : Char) (cs : List Char) :
    joinSep sep (splitOnChar sep cs) = cs := by
  induction cs with
  | nil => rfl
  | cons c rest ih =>
    simp only [splitOnChar]
    split
    · rename_i hc
      subst hc
      cases h : splitOnChar c rest with
      | nil => exact absurd h (splitOnChar_ne_nil c rest)
      | cons p ps =>
        rw [h] at ih
        simp [joinSep, ih]
    · cases h : splitOnChar sep rest with
      | nil => exact absurd h (splitOnChar_ne_nil sep rest)
      | cons p ps =>
        rw [h] at ih
        cases ps with
        | nil => simpa [joinSep] using ih
        | cons q qs => simpa [joinSep] using ih

theorem digitVal_digitChar {d : Nat} (h : d < 10) : digitVal (digitChar d) = d := by
  interval_cases d <;> decide

theorem isDigitChar_digitChar {d : Nat} (h : d < 10) : isDigitChar (digitChar d) = true := by
  interval_cases d <;> decide

theorem natCharsAux_zero (fuel : Nat) (acc : List Char) : natCharsAux fuel 0 acc = acc := by
  cases fuel <;> simp [natCharsAux]

theorem natCharsAux_eq_digits :
    ∀ n : Nat, 0 < n → ∀ fuel : Nat, n ≤ fuel → ∀ acc : List Char,
      natCharsAux fuel n acc = ((Nat.digits 10 n).map digitChar).reverse ++ acc := by
  intro n
  induction n using Nat.strong_induction_on with
  | _ n ih =>
    intro hn fuel hfuel acc
    obtain ⟨fuel', rfl⟩ : ∃ f, fuel = f + 1 :=
      ⟨fuel - 1, by omega⟩
    have hne : n ≠ 0 := by omega
    rw [natCharsAux, if_neg hne]
    have hdig : Nat.digits 10 n = n % 10 :: Nat.digits 10 (n / 10) :=
      Nat.digits_def' (by norm_num) hn
    rcases Nat.eq_zero_or_pos (n / 10) with hq | hq
    · rw [hq, natCharsAux_zero, hdig, hq]
      simp
    · have hlt : n / 10 < n := Nat.div_lt_self hn (by norm_num)
      have hle : n / 10 ≤ fuel' := by omega
      rw [ih (n / 10) hlt hq fuel' hle, hdig]
      simp

theorem natChars_eq_digits {n : Nat} (hn : 0 < n) :
    natChars n = ((Nat.digits 10 n).map digitChar).reverse := by
  rw [natChars, if_neg (by omega)]
  simpa using natCharsAux_eq_digits n hn n le_rfl []

theorem natChars_all_digit (n : Nat) : ∀ c ∈ natChars n, isDigitChar c = true := by
  rcases Nat.eq_zero_or_pos n with rfl | hn
  · intro c hc
    simp only [natChars, if_pos] at hc
    rw [List.mem_singleton] at hc
    subst hc; decide
  · rw [natChars_eq_digits hn]
    intro c hc
    rw [List.mem_reverse, List.mem_map] at hc
    obtain ⟨d, hd, rfl⟩ := hc
    exact isDigitChar_digitChar (Nat.digits_lt_base (by norm_num) hd)

theorem natChars_ne_nil (n : Nat) : natChars n ≠ [] := by
  rcases Nat.eq_zero_or_pos n with rfl | hn
  · simp [natChars]
  · rw [natChars_eq_digits hn]
    simp [Nat.digits_ne_nil_iff_ne_zero, Nat.pos_iff_ne_zero.mp hn]

theorem foldr_eq_ofDigits (ds : List Nat) :
    ds.foldr (fun d a => a * 10 + d) 0 = Nat.ofDigits 10 ds := by
  induction ds with
  | nil => simp [Nat.ofDigits]
  | cons d rest ih =>
    simp only [List.foldr_cons, Nat.ofDigits_cons, ih]
    ring

theorem foldr_digitChar_eq (ds : List Nat) (h : ∀ d ∈ ds, d < 10) :
    ds.foldr (fun d a => a * 10 + digitVal (digitChar d)) 0
      = ds.foldr (fun d a => a * 10 + d) 0 := by
  induction ds with
  | nil => rfl
  | cons d rest ih =>
    simp only [List.foldr_cons]
    rw [ih (fun x hx => h x (List.mem_cons_of_mem d hx)),
      digitVal_digitChar (h d (List.mem_cons_self d rest))]

theorem digitsVal_natChars (n : Nat) : digitsVal (natChars n) = n := by
  rcases Nat.eq_zero_or_pos n with rfl | hn
  · decide
  · rw [natChars_eq_digits hn]
    unfold digitsVal
    rw [List.foldl_reverse, List.foldr_map]
    rw [foldr_digitChar_eq _ (fun d hd => Nat.digits_lt_base (by norm_num) hd),
      foldr_eq_ofDigits]
    exact_mod_cast Nat.ofDigits_digits 10 n

theorem pyInt_natChars (n : Nat) : pyInt (natChars n) = some n := by
  rw [pyInt]
  rw [if_neg (by simp [natChars_ne_nil n]), if_pos (by
    rw [List.all_eq_true]; exact natChars_all_digit n)]
  rw [digitsVal_natChars]

/-- Python `range(a, b)`: the integers from `a` (inclusive) to `b`
(exclusive), empty when `b ≤ a`. -/
def pyRange (a b : Nat) : List Nat := (List.range (b - a)).map (a + ·)

/-- One comma-separated part of the loop body of
`BibleReferenceParser._parse_ranges`: an `A-B` pair is split on the hyphen and
expanded with `range(start, end + 1)`, a lone token is converted with `int`.
Conversion or unpacking failures are Python `ValueError`s, modelled as
`Except.error`. -/
def parsePart (part : List Char) : Except Unit (List Nat) :=
  if '-' ∈ part then
    match splitOnChar '-' part with
    | [s, e] =>
      match pyInt s, pyInt e with
      | some a, some b => .ok (pyRange a (b + 1))
      | _, _ => .error ()
    | _ => .error ()
  else
    match pyInt part with
    | some n => .ok [n]
    | none => .error ()

/-- The accumulation loop of `_parse_ranges` over the comma-separated parts. -/
def parseParts : List (List Char) → List Nat → Except Unit (List Nat)
  | [], chapters => .ok chapters
  | part :: rest, chapters =>
    match parsePart part with
    | .ok l => parseParts rest (chapters ++ l)
    | .error e => .error e

/-- `BibleReferenceParser._parse_ranges`: split the ranges text on commas and
expand each part in order. -/
def parse_ranges (ranges_text : List Char) : Except Unit (List Nat) :=
  parseParts (splitOnChar ',' ranges_text) []

/-- A token of the range grammar, as described for the range expander: a lone
integer or an `A-B` pair. -/
inductive RangeToken where
  | single (n : Nat)
  | interval (a b : Nat)

/-- The text of a range token as it appears in a range expression. -/
def tokenChars : RangeToken → List Char
  | .single n => natChars n
  | .interval a b => natChars a ++ '-' :: natChars b

/-- Validity per the range grammar: an `A-B` pair must have `A ≤ B`. -/
def tokenValid : RangeToken → Bool
  | .single _ => true
  | .interval a b => a ≤ b

/-- Modelled from the spec wording: the expansion of a token is a singleton
for a lone integer and the inclusive ascending run for an `A-B` pair. -/
def tokenExpansion : RangeToken → List Nat
  | .single n => [n]
  | .interval a b => List.range' a (b + 1 - a)

/-- Modelled from the spec wording: a range expression expands to the
concatenation of its tokens' expansions in left-to-right order. -/
def expandTokens : List RangeToken → List Nat
  | [] => []
  | t :: ts => tokenExpansion t ++ expandTokens ts

/-! The scanner of `BibleReferenceParser.parse`: Python
`re.findall(r'([A-Za-z]+)\s*(\d+(?:-\d+)?(?:,\d+(?:-\d+)?)*)', text)`.
Every subpattern here is matched by maximal munch, and since nothing follows
the second group in the pattern, the greedy-first backtracking search of the
regex engine coincides with deterministic maximal munch; `re.findall` tries
the pattern at each position left to right and resumes after each match. -/

/-- Match `\d+(?:-\d+)?` at the head of the input: digits with an optional
hyphen-digits tail. Returns the matched text and the rest. -/
def munchNum (cs : List Char) : Option (List Char × List Char) :=
  let ds := cs.takeWhile isDigitChar
  let r := cs.dropWhile isDigitChar
  if ds.isEmpty then none
  else if r.head? = some '-' then
    let ds2 := r.tail.takeWhile isDigitChar
    if ds2.isEmpty then some (ds, r)
    else some (ds ++ '-' :: ds2, r.tail.dropWhile isDigitChar)
  else some (ds, r)

/-- Match `(?:,\d+(?:-\d+)?)*` at the head of the input: as many
comma-number groups as possible. Returns the numeric tokens (comma-separated
in the matched text) and the rest. Fuel-driven; `munchNum` consumes at least
one character, so fuel equal to the input length suffices. -/
def munchMore : Nat → List Char → List (List Char) × List Char
  | 0, cs => ([], cs)
  | fuel + 1, cs =>
    if cs.head? = some ',' then
      match munchNum cs.tail with
      | some (t, r2) =>
        let p := munchMore fuel r2
        (t :: p.1, p.2)
      | none => ([], cs)
    else ([], cs)

/-- Attempt the whole pattern at the head of the input: letters, optional
whitespace, then the ranges group. On success returns the two captured
groups and the rest of the input. -/
def matchAt (cs : List Char) : Option ((List Char × List Char) × List Char) :=
  let letters := cs.takeWhile isAsciiLetter
  let r1 := cs.dropWhile isAsciiLetter
  if letters.isEmpty then none
  else
    let r2 := r1.dropWhile isSpaceChar
    match munchNum r2 with
    | none => none
    | some (t, r3) =>
      let p := munchMore r3.length r3
      some ((letters, joinSep ',' (t :: p.1)), p.2)

/-- The scanning loop of `re.findall`: try the pattern at each position,
resuming after the end of each match. Fuel-driven; a successful match
consumes at least one character, so fuel equal to the input length
suffices. -/
def findAllAux : Nat → List Char → List (List Char × List Char)
  | 0, _ => []
  | fuel + 1, cs =>
    match cs with
    | [] => []
    | c :: rest =>
      match matchAt (c :: rest) with
      | some (g, r) => g :: findAllAux fuel r
      | none => findAllAux fuel rest

/-- `re.findall` of the book-plus-ranges pattern over the whole input. -/
def findAll (cs : List Char) : List (List Char × List Char) :=
  findAllAux cs.length cs

/-- Python `s.lower()` (ASCII). -/
def pyLower (cs : List Char) : List Char := cs.map Char.toLower

/-- Python `s.title()` (ASCII): a letter is uppercased when the previous
character is not a letter and lowercased otherwise. -/
def pyTitleAux : Bool → List Char → List Char
  | _, [] => []
  | prevCased, c :: rest =>
    if isAsciiLetter c then
      (if prevCased then c.toLower else c.toUpper) :: pyTitleAux true rest
    else c :: pyTitleAux false rest

/-- Python `s.title()` (ASCII). -/
def pyTitle (cs : List Char) : List Char := pyTitleAux false cs

/-- The fixed alias table `BibleReferenceParser.BOOKS`. -/
def BOOKS : List (List Char × List Char) :=
  [("gen".data, "Genesis".data), ("genesis".data, "Genesis".data),
   ("ps".data, "Psalms".data), ("psalm".data, "Psalms".data),
   ("psalms".data, "Psalms".data),
   ("rom".data, "Romans".data), ("romans".data, "Romans".data),
   ("matt".data, "Matthew".data), ("matthew".data, "Matthew".data),
   ("john".data, "John".data)]

/-- Python `dict.get` over the alias table. -/
def lookupBook (k : List Char) : Option (List Char) :=
  (BOOKS.find? (fun e => e.1 == k)).map (·.2)

/-- The normalization `self.BOOKS.get(book.lower(), book.title())`. -/
def normalizeBook (book : List Char) : List Char :=
  (lookupBook (pyLower book)).getD (pyTitle book)

/-- One entry of the list returned by `BibleReferenceParser.parse`. -/
structure ParsedReference where
  book : List Char
  chapters : List Nat
  chapter_count : Nat
deriving Repr, DecidableEq

/-- The accumulation loop of `parse` over the scanner's matches; a range
parsing failure propagates as an exception. -/
def parseMatches : List (List Char × List Char) → List ParsedReference →
    Except Unit (List ParsedReference)
  | [], acc => .ok acc
  | (book, ranges) :: rest, acc =>
    match parse_ranges ranges with
    | .ok chapter_list =>
      parseMatches rest
        (acc ++ [⟨normalizeBook book, chapter_list, chapter_list.length⟩])
    | .error e => .error e

/-- `BibleReferenceParser.parse`. -/
def parse (reference_text : List Char) : Except Unit (List ParsedReference) :=
  parseMatches (findAll reference_text) []

/-- The `ReadingPlan` dataclass. The start date string is modelled as the
ordinal day number it denotes (its `strptime` parsing is not at issue in any
claim). -/
structure ReadingPlan where
  references : List Char
  start_date : Int
  daily_time : List Char
  timezone : List Char
deriving Repr, DecidableEq

/-- `ReadingPlan.get_current_day`, with `datetime.now().date()` passed
explicitly as an ordinal day number. -/
def get_current_day (plan : ReadingPlan) (today : Int) : Int :=
  max 1 (today - plan.start_date + 1)

/-- The persisted record of `reading_plan.json`: the four configuration
fields plus the legacy optional `current_day` key. -/
structure PlanRecord where
  references : List Char
  start_date : Int
  daily_time : List Char
  timezone : List Char
  current_day : Option Int
deriving Repr, DecidableEq

/-- `ReadingPlanManager.load_plan` on a successfully read record: the
`current_day` key is popped before `ReadingPlan(**data)` is constructed. -/
def load_plan (r : PlanRecord) : ReadingPlan :=
  { references := r.references, start_date := r.start_date,
    daily_time := r.daily_time, timezone := r.timezone }

/-- `ReadingPlanManager.save_plan`: only the four configuration fields are
written; no `current_day` key is produced. -/
def save_plan (p : ReadingPlan) : PlanRecord :=
  { references := p.references, start_date := p.start_date,
    daily_time := p.daily_time, timezone := p.timezone, current_day := none }

/-- The running sum `sum(ref['chapter_count'] for ref in references)`. -/
def totalChapters : List ParsedReference → Nat
  | [] => 0
  | r :: rest => r.chapter_count + totalChapters rest

/-- The inner loop of `ReadingPlanManager.get_today_reference`: walk one
entry's chapters with the running counter, returning the rendered reference
when the counter reaches the target, together with the updated counter. -/
def scanChapters (book : List Char) : List Nat → Nat → Int → Option (List Char) × Nat
  | [], count, _ => (none, count)
  | ch :: rest, count, target =>
    if ((count + 1 : Nat) : Int) = target then
      (some (book ++ ' ' :: natChars ch), count + 1)
    else scanChapters book rest (count + 1) target

/-- The outer loop of `get_today_reference` over the parsed references. -/
def scanRefs : List ParsedReference → Nat → Int → Option (List Char)
  | [], _, _ => none
  | r :: rest, count, target =>
    match scanChapters r.book r.chapters count target with
    | (some s, _) => some s
    | (none, count') => scanRefs rest count' target

/-- `ReadingPlanManager.get_today_reference`. -/
def get_today_reference (plan : ReadingPlan) (today : Int)
    (references : List ParsedReference) : Option (List Char) :=
  scanRefs references 0 (get_current_day plan today)

/-- `ReadingPlanManager.is_plan_complete`. -/
def is_plan_complete (plan : ReadingPlan) (today : Int)
    (references : List ParsedReference) : Bool :=
  decide (get_current_day plan today > (totalChapters references : Int))

/-- The dictionary returned by `ReadingPlanManager.get_plan_progress`.
Python float arithmetic is modelled over `ℚ`. -/
structure ProgressInfo where
  current_day : Int
  total_days : Nat
  progress_percent : ℚ
  is_complete : Bool
deriving Repr, DecidableEq

/-- `ReadingPlanManager.get_plan_progress`. -/
def get_plan_progress (plan : ReadingPlan) (today : Int)
    (references : List ParsedReference) : ProgressInfo :=
  let current_day := get_current_day plan today
  let total_chapters := totalChapters references
  { current_day := current_day
    total_days := total_chapters
    progress_percent :=
      if 0 < total_chapters then
        min 100 (((current_day : ℚ) - 1) / (total_chapters : ℚ) * 100)
      else 0
    is_complete := decide (current_day > (total_chapters : Int)) }

/-- The `TIMEZONES` offset table. -/
def TIMEZONES : List (List Char × Int) :=
  [("EST".data, -5), ("EDT".data, -4), ("PST".data, -8), ("PDT".data, -7),
   ("GMT".data, 0), ("UTC".data, 0), ("SGT".data, 8), ("GMT+7".data, 7),
   ("GMT+8".data, 8)]

/-- `TIMEZONES.get(plan.timezone, 0)`. -/
def tzOffset (tz : List Char) : Int :=
  ((TIMEZONES.find? (fun e => e.1 == tz)).map (·.2)).getD 0

/-- `ReadingPlanManager.is_time_to_send`, with `datetime.utcnow()` passed
explicitly as seconds. The local time of day is the local instant modulo
86400 seconds; the two `datetime.combine` calls on the same local date make
the compared difference exactly the time-of-day difference. `time(hour,
minute)` validates its fields and raises `ValueError` otherwise, as does the
two-element unpacking of the split. -/
def is_time_to_send (plan : ReadingPlan) (nowUtc : Int) : Except Unit Bool :=
  let off := tzOffset plan.timezone
  let localSeconds := nowUtc + off * 3600
  match splitOnChar ':' plan.daily_time with
  | [hs, ms] =>
    match pyInt hs, pyInt ms with
    | some h, some m =>
      if h < 24 ∧ m < 60 then
        .ok (decide ((localSeconds.emod 86400 - ((h : Int) * 3600 + (m : Int) * 60)).natAbs ≤ 3600))
      else .error ()
    | _, _ => .error ()
  | _ => .error ()

/-- The flattened reading-unit sequence: parse order, then per-entry chapter
order (the authoritative ordering of the data-model invariant). -/
def flatUnits : List ParsedReference → List (List Char × Nat)
  | [] => []
  | r :: rest => r.chapters.map (fun ch => (r.book, ch)) ++ flatUnits rest

/-- The rendered label of one reading unit, `f-string style`. -/
def renderUnit (u : List Char × Nat) : List Char := u.1 ++ ' ' :: natChars u.2

theorem not_digit_not_mem_natChars {c : Char} (h : isDigitChar c = false) (n : Nat) :
    c ∉ natChars n := by
  intro hm
  have h2 := natChars_all_digit n c hm
  rw [h] at h2
  exact Bool.false_ne_true h2

theorem comma_not_mem_natChars (n : Nat) : ',' ∉ natChars n :=
  not_digit_not_mem_natChars (by decide) n

theorem hyphen_not_mem_natChars (n : Nat) : '-' ∉ natChars n :=
  not_digit_not_mem_natChars (by decide) n

/-- C5: the derived cursor is `max(1, (today − start_date).days + 1)`; it is
always at least 1, it is monotone in the wall-clock date (never wrapped), and
once the plan is complete it stays complete as the date advances. -/
theorem c5_cursor_invariant (plan : ReadingPlan) (today today' : Int)
    (refs : List ParsedReference) :
    get_current_day plan today = max 1 (today - plan.start_date + 1)
    ∧ 1 ≤ get_current_day plan today
    ∧ (today ≤ today' → get_current_day plan today ≤ get_current_day plan today')
    ∧ (is_plan_complete plan today refs = true → today ≤ today' →
        is_plan_complete plan today' refs = true) := by
  refine ⟨rfl, le_max_left _ _, fun h => ?_, fun hc h => ?_⟩
  · exact max_le_max le_rfl (by omega)
  · rw [is_plan_complete, decide_eq_true_iff] at hc ⊢
    have hmono : get_current_day plan today ≤ get_current_day plan today' :=
      max_le_max le_rfl (by omega)
    omega

/-- C5 witness at a concrete plan, date pair and reference list. -/
theorem c5_cursor_invariant_witness :
    get_current_day ⟨"John 1-2".data, 0, "08:00".data, "SGT".data⟩ 5
        ≤ get_current_day ⟨"John 1-2".data, 0, "08:00".data, "SGT".data⟩ 6
    ∧ is_plan_complete ⟨"John 1-2".data, 0, "08:00".data, "SGT".data⟩ 6 [] = true := by
  have h := c5_cursor_invariant ⟨"John 1-2".data, 0, "08:00".data, "SGT".data⟩ 5 6 []
  exact ⟨h.2.2.1 (by decide), h.2.2.2 (by decide) (by decide)⟩

/-- C9: the persisted `current_day` field is inert: `load_plan` drops it,
`save_plan` never writes it, and every operation gives identical results on
two records that differ only in that field. -/
theorem c9_current_day_inert (r : PlanRecord) (x y : Option Int) (p : ReadingPlan)
    (today : Int) (refs : List ParsedReference) :
    load_plan { r with current_day := x } = load_plan { r with current_day := y }
    ∧ (save_plan p).current_day = none
    ∧ get_today_reference (load_plan { r with current_day := x }) today refs
        = get_today_reference (load_plan { r with current_day := y }) today refs
    ∧ get_plan_progress (load_plan { r with current_day := x }) today refs
        = get_plan_progress (load_plan { r with current_day := y }) today refs
    ∧ is_plan_complete (load_plan { r with current_day := x }) today refs
        = is_plan_complete (load_plan { r with current_day := y }) today refs :=
  ⟨rfl, rfl, rfl, rfl, rfl⟩

/-- C4: progress reports the unit count as `total_days`, the clamped
percentage `clamp(0, 100, (current_day − 1) / total_days × 100)` when
`total_days > 0` (and `0` otherwise), and `is_complete = current_day >
total_days`; with `total_days = 0` the plan counts as complete whenever the
cursor is at least 1. -/
theorem c4_progress (plan : ReadingPlan) (today : Int) (refs : List ParsedReference) :
    (get_plan_progress plan today refs).total_days = totalChapters refs
    ∧ (0 < totalChapters refs →
        (get_plan_progress plan today refs).progress_percent
          = max 0 (min 100
              (((get_current_day plan today : ℚ) - 1) / (totalChapters refs : ℚ) * 100)))
    ∧ (totalChapters refs = 0 →
        (get_plan_progress plan today refs).progress_percent = 0)
    ∧ ((get_plan_progress plan today refs).is_complete
        = decide ((totalChapters refs : Int) < get_current_day plan today))
    ∧ (totalChapters refs = 0 → 1 ≤ get_current_day plan today →
        (get_plan_progress plan today refs).is_complete = true) := by
  refine ⟨rfl, fun hpos => ?_, fun hzero => ?_, rfl, fun hzero hone => ?_⟩
  · have hc : (1 : Int) ≤ get_current_day plan today := le_max_left _ _
    have hcq : (1 : ℚ) ≤ (get_current_day plan today : ℚ) := by exact_mod_cast hc
    have hq : (0 : ℚ) ≤ ((get_current_day plan today : ℚ) - 1)
        / (totalChapters refs : ℚ) * 100 := by
      apply mul_nonneg (div_nonneg (by linarith) (by positivity)) (by norm_num)
    rw [get_plan_progress]
    simp only [if_pos hpos]
    exact (max_eq_right (le_min (by norm_num) hq)).symm
  · rw [get_plan_progress]
    simp [hzero]
  · rw [get_plan_progress]
    simp only [hzero, decide_eq_true_iff]
    omega

/-- C4 witness: a five-day-old ten-chapter plan reports 40 percent, and an
empty plan counts as complete. -/
theorem c4_progress_witness :
    (get_plan_progress ⟨"John 1-10".data, 0, "08:00".data, "SGT".data⟩ 4
        [⟨"John".data, [1, 2, 3, 4, 5, 6, 7, 8, 9, 10], 10⟩]).progress_percent
      = max 0 (min 100
          (((get_current_day ⟨"John 1-10".data, 0, "08:00".data, "SGT".data⟩ 4 : ℚ) - 1)
            / ((totalChapters [⟨"John".data, [1, 2, 3, 4, 5, 6, 7, 8, 9, 10], 10⟩] : Nat) : ℚ)
            * 100))
    ∧ (get_plan_progress ⟨"John 1-10".data, 0, "08:00".data, "SGT".data⟩ 4 []).is_complete
        = true := by
  have h1 := c4_progress ⟨"John 1-10".data, 0, "08:00".data, "SGT".data⟩ 4
    [⟨"John".data, [1, 2, 3, 4, 5, 6, 7, 8, 9, 10], 10⟩]
  have h2 := c4_progress ⟨"John 1-10".data, 0, "08:00".data, "SGT".data⟩ 4 []
  exact ⟨h1.2.1 (by decide), h2.2.2.2.2 rfl (by decide)⟩

/-- C7: `parse` returns the empty list, not an exception, whenever the
scanning pattern finds no match in the citation text; in particular
`parse("")` returns the empty list. -/
theorem c7_no_match_empty (text : List Char) (h : findAll text = []) :
    parse text = .ok [] ∧ parse ("".data) = .ok [] := by
  constructor
  · rw [parse, h]; rfl
  · rfl

/-- C7 witness: a citation text with no letters has no match and parses to
the empty list. -/
theorem c7_no_match_empty_witness : parse ("123 456".data) = Except.ok [] :=
  (c7_no_match_empty ("123 456".data) rfl).1

/-- C2 counterexample: contrary to the claim, `expand("5-3")` does not fail
with a parse error; it returns successfully, with the empty list. -/
theorem c2_reversed_counterexample :
    parse_ranges ("5-3".data) = Except.ok ([] : List Nat) := rfl

/-- C2 amended: a reversed range token `A-B` with `A > B` is not rejected:
`_parse_ranges` accepts it and the token expands to the empty sequence
(`range(A, B+1)` is empty), so for example `expand("5-3") = []`. -/
theorem c2_reversed_range (a b : Nat) (h : b < a) :
    parse_ranges (natChars a ++ '-' :: natChars b) = Except.ok ([] : List Nat) := by
  have hcomma : ',' ∉ natChars a ++ '-' :: natChars b := by
    intro hm
    rcases List.mem_append.mp hm with hm | hm
    · exact comma_not_mem_natChars a hm
    · rcases List.mem_cons.mp hm with hm | hm
      · exact absurd hm (by decide)
      · exact comma_not_mem_natChars b hm
  rw [parse_ranges, splitOnChar_eq_single hcomma, parseParts]
  have hmem : '-' ∈ natChars a ++ '-' :: natChars b :=
    List.mem_append.mpr (Or.inr (List.mem_cons_self _ _))
  rw [parsePart, if_pos hmem, splitOnChar_append (hyphen_not_mem_natChars a),
    splitOnChar_eq_single (hyphen_not_mem_natChars b)]
  simp only [pyInt_natChars]
  have hrange : pyRange a (b + 1) = [] := by
    rw [pyRange]
    have : b + 1 - a = 0 := by omega
    rw [this]
    rfl
  rw [hrange]
  rfl

/-- C2 amended witness at the reversed range 5-3. -/
theorem c2_reversed_range_witness :
    parse_ranges (natChars 5 ++ '-' :: natChars 3) = Except.ok ([] : List Nat) :=
  c2_reversed_range 5 3 (by decide)

theorem comma_not_mem_tokenChars (t : RangeToken) : ',' ∉ tokenChars t := by
  cases t with
  | single n => exact comma_not_mem_natChars n
  | interval a b =>
    intro hm
    rcases List.mem_append.mp hm with hm | hm
    · exact comma_not_mem_natChars a hm
    · rcases List.mem_cons.mp hm with hm | hm
      · exact absurd hm (by decide)
      · exact comma_not_mem_natChars b hm

theorem pyRange_eq_range' (a b : Nat) : pyRange a b = List.range' a (b - a) := by
  rw [pyRange, List.range'_eq_map_range]

theorem parsePart_token (t : RangeToken) (h : tokenValid t = true) :
    parsePart (tokenChars t) = .ok (tokenExpansion t) := by
  cases t with
  | single n =>
    rw [tokenChars, parsePart, if_neg (hyphen_not_mem_natChars n), pyInt_natChars]
    rfl
  | interval a b =>
    have hmem : '-' ∈ tokenChars (.interval a b) :=
      List.mem_append.mpr (Or.inr (List.mem_cons_self _ _))
    rw [tokenChars] at hmem ⊢
    rw [parsePart, if_pos hmem, splitOnChar_append (hyphen_not_mem_natChars a),
      splitOnChar_eq_single (hyphen_not_mem_natChars b)]
    simp only [pyInt_natChars]
    rw [tokenExpansion, pyRange_eq_range']

theorem parseParts_tokens :
    ∀ (toks : List RangeToken) (acc : List Nat),
      (∀ t ∈ toks, tokenValid t = true) →
      parseParts (toks.map tokenChars) acc = .ok (acc ++ expandTokens toks)
  | [], acc, _ => by simp [parseParts, expandTokens]
  | t :: ts, acc, h => by
    rw [List.map_cons, parseParts,
      parsePart_token t (h t (List.mem_cons_self _ _))]
    show parseParts (ts.map tokenChars) (acc ++ tokenExpansion t) = _
    rw [parseParts_tokens ts (acc ++ tokenExpansion t)
        (fun x hx => h x (List.mem_cons_of_mem t hx)),
      expandTokens, List.append_assoc]

/-- C1: on every valid range expression (each token a lone integer or an
ascending pair), `_parse_ranges` returns the concatenation, in left-to-right
token order, of each token's expansion — a singleton for a lone integer, the
inclusive ascending run for a pair — preserving duplicates across
overlapping tokens; and `expand("1-15,120-134")` is the stated length-30
sequence. -/
theorem c1_expand_concat :
    (∀ toks : List RangeToken, toks ≠ [] → (∀ t ∈ toks, tokenValid t = true) →
      parse_ranges (joinSep ',' (toks.map tokenChars)) = .ok (expandTokens toks))
    ∧ (∃ l : List Nat, parse_ranges ("1-15,120-134".data) = Except.ok l
        ∧ l.length = 30
        ∧ l = [1, 2, 3, 4, 5, 6, 7, 8, 9, 10, 11, 12, 13, 14, 15,
               120, 121, 122, 123, 124, 125, 126, 127, 128, 129, 130, 131, 132, 133, 134]) := by
  constructor
  · intro toks hne hvalid
    rw [parse_ranges,
      splitOnChar_joinSep (by simpa using hne)
        (by
          intro p hp
          rw [List.mem_map] at hp
          obtain ⟨t, _, rfl⟩ := hp
          exact comma_not_mem_tokenChars t)]
    simpa using parseParts_tokens toks [] hvalid
  · exact ⟨_, rfl, rfl, rfl⟩

/-- C1 witness: two overlapping ranges produce each shared chapter twice. -/
theorem c1_expand_concat_witness :
    parse_ranges ("1-3,2-4".data) = Except.ok [1, 2, 3, 2, 3, 4] := by
  have h := c1_expand_concat.1 [RangeToken.interval 1 3, RangeToken.interval 2 4]
    (by simp) (by decide)
  exact h

/-- C6: the matched book token is normalized through the fixed lowercase
alias table, and an unmapped token falls back to Python title-casing of the
raw token, without error; `ps`, `psalm` and `psalms` all map to `Psalms`,
and `parse("XyzBook 1-2")` yields one entry with book `Xyzbook` and
chapters `[1, 2]`. -/
theorem c6_book_normalization (book : List Char)
    (hnone : lookupBook (pyLower book) = none) :
    normalizeBook book = pyTitle book
    ∧ normalizeBook ("ps".data) = "Psalms".data
    ∧ normalizeBook ("psalm".data) = "Psalms".data
    ∧ normalizeBook ("psalms".data) = "Psalms".data
    ∧ parse ("XyzBook 1-2".data) = Except.ok [⟨"Xyzbook".data, [1, 2], 2⟩] := by
  refine ⟨?_, rfl, rfl, rfl, rfl⟩
  rw [normalizeBook, hnone]
  rfl

/-- C6 witness at the unmapped book token of the stated example. -/
theorem c6_book_normalization_witness :
    normalizeBook ("XyzBook".data) = pyTitle ("XyzBook".data) :=
  (c6_book_normalization ("XyzBook".data) rfl).1

theorem scanChapters_fst (book : List Char) :
    ∀ (chs : List Nat) (count : Nat) (target : Int),
      (scanChapters book chs count target).1
        = if (count : Int) < target
          then (chs.map (fun ch => book ++ ' ' :: natChars ch))[(target - count - 1).toNat]?
          else none
  | [], count, target => by simp [scanChapters]
  | ch :: rest, count, target => by
    rw [scanChapters]
    by_cases heq : ((count + 1 : Nat) : Int) = target
    · rw [if_pos heq]
      have h1 : (count : Int) < target := by omega
      have h0 : (target - count - 1).toNat = 0 := by omega
      rw [if_pos h1, List.map_cons, h0, List.getElem?_cons_zero]
    · rw [if_neg heq, scanChapters_fst book rest (count + 1) target]
      by_cases h1 : (count : Int) < target
      · have h2 : ((count + 1 : Nat) : Int) < target := by
          push_cast
          push_cast at heq
          omega
        have hidx : (target - count - 1).toNat = (target - (count + 1 : Nat) - 1).toNat + 1 := by
          push_cast
          push_cast at heq h2
          omega
        rw [if_pos h2, if_pos h1, List.map_cons, hidx, List.getElem?_cons_succ]
      · have h2 : ¬ ((count + 1 : Nat) : Int) < target := by
          push_cast
          push_cast at h1
          omega
        rw [if_neg h2, if_neg h1]

theorem scanChapters_none_snd (book : List Char) :
    ∀ (chs : List Nat) (count : Nat) (target : Int),
      (scanChapters book chs count target).1 = none →
      (scanChapters book chs count target).2 = count + chs.length
  | [], count, target => by simp [scanChapters]
  | ch :: rest, count, target => by
    rw [scanChapters]
    by_cases heq : ((count + 1 : Nat) : Int) = target
    · rw [if_pos heq]
      intro h
      exact absurd h (by simp)
    · rw [if_neg heq]
      intro h
      rw [scanChapters_none_snd book rest (count + 1) target h, List.length_cons]
      omega

theorem scanRefs_eq :
    ∀ (refs : List ParsedReference) (count : Nat) (target : Int),
      scanRefs refs count target
        = if (count : Int) < target
          then ((flatUnits refs).map renderUnit)[(target - count - 1).toNat]?
          else none
  | [], count, target => by simp [scanRefs, flatUnits]
  | r :: rest, count, target => by
    rw [scanRefs]
    have hmm : (flatUnits (r :: rest)).map renderUnit
        = r.chapters.map (fun ch => r.book ++ ' ' :: natChars ch)
          ++ (flatUnits rest).map renderUnit := by
      rw [flatUnits, List.map_append, List.map_map]
      rfl
    cases hscan : scanChapters r.book r.chapters count target with
    | mk opt count' =>
      cases opt with
      | some s =>
        have h1 := scanChapters_fst r.book r.chapters count target
        rw [hscan] at h1
        by_cases hlt : (count : Int) < target
        · rw [if_pos hlt] at h1
          have hidx : (r.chapters.map (fun ch => r.book ++ ' ' :: natChars ch))[(target - count - 1).toNat]?
              = some s := h1.symm
          obtain ⟨hbound, -⟩ := List.getElem?_eq_some_iff.mp hidx
          show some s = _
          rw [if_pos hlt, hmm, List.getElem?_append, if_pos hbound, hidx]
        · rw [if_neg hlt] at h1
          exact absurd h1.symm (by simp)
      | none =>
        have h1 := scanChapters_fst r.book r.chapters count target
        have h2 := scanChapters_none_snd r.book r.chapters count target (by rw [hscan])
        rw [hscan] at h1 h2
        simp only at h1 h2
        subst h2
        show scanRefs rest (count + r.chapters.length) target = _
        rw [scanRefs_eq rest (count + r.chapters.length) target]
        by_cases hlt : (count : Int) < target
        · rw [if_pos hlt] at h1
          have hnone : (r.chapters.map (fun ch => r.book ++ ' ' :: natChars ch))[(target - count - 1).toNat]?
              = none := h1.symm
          rw [List.getElem?_eq_none_iff, List.length_map] at hnone
          by_cases hlt2 : ((count + r.chapters.length : Nat) : Int) < target
          · rw [if_pos hlt2, if_pos hlt, hmm, List.getElem?_append,
              if_neg (by rw [List.length_map]; omega)]
            congr 1
            rw [List.length_map]
            omega
          · exfalso
            push_cast at hlt2
            omega
        · have hlt2 : ¬ ((count + r.chapters.length : Nat) : Int) < target := by
            push_cast
            push_cast at hlt
            omega
          rw [if_neg hlt, if_neg hlt2]

theorem flatUnits_length (refs : List ParsedReference)
    (h : ∀ r ∈ refs, r.chapter_count = r.chapters.length) :
    (flatUnits refs).length = totalChapters refs := by
  induction refs with
  | nil => rfl
  | cons r rest ih =>
    rw [flatUnits, totalChapters, List.length_append, List.length_map,
      ih (fun x hx => h x (List.mem_cons_of_mem r hx)),
      h r (List.mem_cons_self r rest)]

/-- C3: `get_today_reference` walks the flattened unit sequence (parse
order, then per-entry chapter order) with a 1-based running counter and
returns the rendered unit at the cursor's position; it returns `None`
exactly when the cursor exceeds the total number of units, and at cursor
`total_days + 1` it returns `None` while `is_plan_complete` is true. The
hypothesis records that each entry's stored `chapter_count` is the length of
its chapter list, as `parse` always produces. -/
theorem c3_today_unit (plan : ReadingPlan) (today : Int) (refs : List ParsedReference)
    (hcc : ∀ r ∈ refs, r.chapter_count = r.chapters.length) :
    get_today_reference plan today refs
      = ((flatUnits refs)[(get_current_day plan today - 1).toNat]?).map renderUnit
    ∧ (get_today_reference plan today refs = none
        ↔ (totalChapters refs : Int) < get_current_day plan today)
    ∧ (get_current_day plan today = (totalChapters refs : Int) + 1 →
        get_today_reference plan today refs = none
        ∧ is_plan_complete plan today refs = true) := by
  have hc1 : (1 : Int) ≤ get_current_day plan today := le_max_left _ _
  have hmain : get_today_reference plan today refs
      = ((flatUnits refs)[(get_current_day plan today - 1).toNat]?).map renderUnit := by
    rw [get_today_reference, scanRefs_eq refs 0 (get_current_day plan today),
      if_pos (by omega)]
    have hidx : (get_current_day plan today - (0 : Nat) - 1).toNat
        = (get_current_day plan today - 1).toNat := by omega
    rw [hidx, List.getElem?_map]
  have hlen := flatUnits_length refs hcc
  refine ⟨hmain, ?_, fun heq => ?_⟩
  · rw [hmain, Option.map_eq_none', List.getElem?_eq_none_iff, hlen]
    omega
  · have hnone : get_today_reference plan today refs = none := by
      rw [hmain, Option.map_eq_none', List.getElem?_eq_none_iff, hlen]
      omega
    refine ⟨hnone, ?_⟩
    rw [is_plan_complete, decide_eq_true_iff]
    omega

/-- C3 witness: a two-chapter plan on its third day returns `None` and is
complete. -/
theorem c3_today_unit_witness :
    get_today_reference ⟨"John 1-2".data, 0, "08:00".data, "SGT".data⟩ 2
        [⟨"John".data, [1, 2], 2⟩] = none
    ∧ is_plan_complete ⟨"John 1-2".data, 0, "08:00".data, "SGT".data⟩ 2
        [⟨"John".data, [1, 2], 2⟩] = true :=
  (c3_today_unit ⟨"John 1-2".data, 0, "08:00".data, "SGT".data⟩ 2
    [⟨"John".data, [1, 2], 2⟩] (by decide)).2.2 (by decide)

/-- C8: `is_time_to_send` is a function of the wall clock and the plan
configuration alone: with the plan's timezone offset (0 for a key outside
the fixed table), the local time of day is UTC now plus the offset,
modulo one day, and the result is true exactly when it is within one hour,
inclusive, of the configured daily time. -/
theorem c8_is_due (plan : ReadingPlan) (nowUtc : Int) (hs ms : List Char) (h m : Nat)
    (hsplit : splitOnChar ':' plan.daily_time = [hs, ms])
    (hh : pyInt hs = some h) (hm : pyInt ms = some m)
    (hh24 : h < 24) (hm60 : m < 60) :
    is_time_to_send plan nowUtc
      = Except.ok (decide (((nowUtc + tzOffset plan.timezone * 3600).emod 86400
          - ((h : Int) * 3600 + (m : Int) * 60)).natAbs ≤ 3600))
    ∧ ∀ tz : List Char, TIMEZONES.find? (fun e => e.1 == tz) = none →
        tzOffset tz = 0 := by
  constructor
  · rw [is_time_to_send, hsplit]
    simp only [hh, hm]
    rw [if_pos ⟨hh24, hm60⟩]
  · intro tz hnone
    rw [tzOffset, hnone]
    rfl

/-- C8 witness: a Singapore-time plan at 08:00 local time is due. -/
theorem c8_is_due_witness :
    is_time_to_send ⟨"John 1-2".data, 0, "08:00".data, "SGT".data⟩ 0
      = Except.ok true := by
  have h := c8_is_due ⟨"John 1-2".data, 0, "08:00".data, "SGT".data⟩ 0
    ("08".data) ("00".data) 8 0 rfl rfl rfl (by decide) (by decide)
  exact h.1

theorem all_takeWhile (p : Char → Bool) (l : List Char) :
    (l.takeWhile p).all p = true := by
  induction l with
  | nil => rfl
  | cons c rest ih =>
    cases hp : p c
    · simp [List.takeWhile_cons, hp]
    · simp [List.takeWhile_cons, hp, ih]

theorem all_not_mem {l : List Char} {c : Char}
    (hall : l.all isDigitChar = true) (hc : isDigitChar c = false) : c ∉ l := by
  intro hm
  rw [List.all_eq_true] at hall
  have := hall c hm
  rw [hc] at this
  exact Bool.false_ne_true this

/-- The shape of every numeric token the scanner produces: a digit run, or
two digit runs joined by one hyphen. -/
def goodToken (t : List Char) : Prop :=
  (t ≠ [] ∧ t.all isDigitChar = true)
  ∨ (∃ a b : List Char, t = a ++ '-' :: b ∧ a ≠ [] ∧ b ≠ []
      ∧ a.all isDigitChar = true ∧ b.all isDigitChar = true)

theorem goodToken_parsePart {t : List Char} (h : goodToken t) :
    ∃ l, parsePart t = .ok l := by
  rcases h with ⟨hne, hall⟩ | ⟨a, b, rfl, hane, hbne, haall, hball⟩
  · refine ⟨[digitsVal t], ?_⟩
    rw [parsePart, if_neg (all_not_mem hall (by decide)), pyInt,
      if_neg (by simpa using hne), if_pos hall]
  · have hmem : '-' ∈ a ++ '-' :: b :=
      List.mem_append.mpr (Or.inr (List.mem_cons_self _ _))
    have hpa : pyInt a = some (digitsVal a) := by
      rw [pyInt, if_neg (by simpa using hane), if_pos haall]
    have hpb : pyInt b = some (digitsVal b) := by
      rw [pyInt, if_neg (by simpa using hbne), if_pos hball]
    refine ⟨pyRange (digitsVal a) (digitsVal b + 1), ?_⟩
    rw [parsePart, if_pos hmem,
      splitOnChar_append (all_not_mem haall (by decide)),
      splitOnChar_eq_single (all_not_mem hball (by decide))]
    simp only [hpa, hpb]

theorem goodToken_no_comma {t : List Char} (h : goodToken t) : ',' ∉ t := by
  rcases h with ⟨_, hall⟩ | ⟨a, b, rfl, _, _, haall, hball⟩
  · exact all_not_mem hall (by decide)
  · intro hm
    rcases List.mem_append.mp hm with hm | hm
    · exact all_not_mem haall (by decide) hm
    · rcases List.mem_cons.mp hm with hm | hm
      · exact absurd hm (by decide)
      · exact all_not_mem hball (by decide) hm

theorem munchNum_good {cs t r : List Char} (h : munchNum cs = some (t, r)) :
    goodToken t := by
  simp only [munchNum] at h
  by_cases he : (cs.takeWhile isDigitChar).isEmpty
  · rw [if_pos he] at h
    exact absurd h (by simp)
  · rw [if_neg he] at h
    have hne : cs.takeWhile isDigitChar ≠ [] := by
      simpa [List.isEmpty_iff] using he
    have hall : (cs.takeWhile isDigitChar).all isDigitChar = true :=
      all_takeWhile _ _
    by_cases hh : (cs.dropWhile isDigitChar).head? = some '-'
    · rw [if_pos hh] at h
      by_cases he2 : ((cs.dropWhile isDigitChar).tail.takeWhile isDigitChar).isEmpty
      · rw [if_pos he2] at h
        injection h with h1
        injection h1 with h1 h2
        subst h1
        exact Or.inl ⟨hne, hall⟩
      · rw [if_neg he2] at h
        injection h with h1
        injection h1 with h1 h2
        subst h1
        exact Or.inr ⟨cs.takeWhile isDigitChar,
          (cs.dropWhile isDigitChar).tail.takeWhile isDigitChar,
          rfl, hne, by simpa [List.isEmpty_iff] using he2, hall, all_takeWhile _ _⟩
    · rw [if_neg hh] at h
      injection h with h1
      injection h1 with h1 h2
      subst h1
      exact Or.inl ⟨hne, hall⟩

theorem munchMore_good :
    ∀ (fuel : Nat) (cs : List Char), ∀ t ∈ (munchMore fuel cs).1, goodToken t := by
  intro fuel
  induction fuel with
  | zero =>
    intro cs t ht
    exact absurd ht (by simp [munchMore])
  | succ fuel ih =>
    intro cs t ht
    rw [munchMore] at ht
    by_cases hh : cs.head? = some ','
    · rw [if_pos hh] at ht
      cases hmn : munchNum cs.tail with
      | none =>
        rw [hmn] at ht
        exact absurd ht (by simp)
      | some p =>
        obtain ⟨t0, r2⟩ := p
        rw [hmn] at ht
        simp only [List.mem_cons] at ht
        rcases ht with rfl | ht
        · exact munchNum_good hmn
        · exact ih r2 t ht
    · rw [if_neg hh] at ht
      exact absurd ht (by simp)

theorem matchAt_good {cs : List Char} {g : List Char × List Char} {r : List Char}
    (h : matchAt cs = some (g, r)) :
    ∃ ts : List (List Char), ts ≠ [] ∧ (∀ t ∈ ts, goodToken t)
      ∧ g.2 = joinSep ',' ts := by
  simp only [matchAt] at h
  by_cases he : (cs.takeWhile isAsciiLetter).isEmpty
  · rw [if_pos he] at h
    exact absurd h (by simp)
  · rw [if_neg he] at h
    cases hmn : munchNum ((cs.dropWhile isAsciiLetter).dropWhile isSpaceChar) with
    | none =>
      rw [hmn] at h
      exact absurd h (by simp)
    | some p =>
      obtain ⟨t0, r3⟩ := p
      rw [hmn] at h
      injection h with h1
      injection h1 with h1 h2
      refine ⟨t0 :: (munchMore r3.length r3).1, by simp, ?_, ?_⟩
      · intro t ht
        rcases List.mem_cons.mp ht with rfl | ht
        · exact munchNum_good hmn
        · exact munchMore_good r3.length r3 t ht
      · rw [← h1]

theorem parseParts_ok :
    ∀ (parts : List (List Char)) (acc : List Nat),
      (∀ p ∈ parts, ∃ l, parsePart p = .ok l) →
      ∃ L, parseParts parts acc = .ok L
  | [], acc, _ => ⟨acc, rfl⟩
  | p :: rest, acc, h => by
    obtain ⟨l, hl⟩ := h p (List.mem_cons_self _ _)
    rw [parseParts, hl]
    exact parseParts_ok rest (acc ++ l) (fun x hx => h x (List.mem_cons_of_mem p hx))

theorem parse_ranges_good {ts : List (List Char)} (hne : ts ≠ [])
    (hgood : ∀ t ∈ ts, goodToken t) :
    ∃ L, parse_ranges (joinSep ',' ts) = .ok L := by
  rw [parse_ranges,
    splitOnChar_joinSep hne (fun p hp => goodToken_no_comma (hgood p hp))]
  exact parseParts_ok ts [] (fun p hp => goodToken_parsePart (hgood p hp))

theorem findAllAux_ranges_ok :
    ∀ (fuel : Nat) (cs : List Char), ∀ pr ∈ findAllAux fuel cs,
      ∃ L, parse_ranges pr.2 = Except.ok L := by
  intro fuel
  induction fuel with
  | zero =>
    intro cs pr hpr
    exact absurd hpr (by simp [findAllAux])
  | succ fuel ih =>
    intro cs pr hpr
    cases cs with
    | nil => exact absurd hpr (by simp [findAllAux])
    | cons c rest =>
      have hpr2 : pr ∈ (match matchAt (c :: rest) with
          | some (g, r) => g :: findAllAux fuel r
          | none => findAllAux fuel rest) := hpr
      cases hma : matchAt (c :: rest) with
      | none =>
        rw [hma] at hpr2
        exact ih rest pr hpr2
      | some q =>
        obtain ⟨g, r⟩ := q
        rw [hma] at hpr2
        rcases List.mem_cons.mp hpr2 with rfl | hpr2
        · obtain ⟨ts, htne, htgood, hg2⟩ := matchAt_good hma
          rw [hg2]
          exact parse_ranges_good htne htgood
        · exact ih r pr hpr2

theorem parseMatches_ok :
    ∀ (ms : List (List Char × List Char)) (acc : List ParsedReference),
      (∀ pr ∈ ms, ∃ L, parse_ranges pr.2 = Except.ok L) →
      ∃ refs, parseMatches ms acc = .ok refs
  | [], acc, _ => ⟨acc, rfl⟩
  | (book, ranges) :: rest, acc, h => by
    obtain ⟨L, hL⟩ := h (book, ranges) (List.mem_cons_self _ _)
    rw [parseMatches, hL]
    exact parseMatches_ok rest _ (fun x hx => h x (List.mem_cons_of_mem _ hx))

/-- C10: `parse` is total on arbitrary input: every ranges token captured by
the scanning pattern has a shape that `_parse_ranges` accepts (digit runs
joined by single hyphens and commas), so `parse` always returns a list and
the integer-conversion error branch is unreachable for scanner-produced
tokens. -/
theorem c10_parse_total (text : List Char) :
    (∀ pr ∈ findAll text, ∃ L, parse_ranges pr.2 = Except.ok L)
    ∧ ∃ refs, parse text = Except.ok refs := by
  have hall := findAllAux_ranges_ok text.length text
  exact ⟨hall, parseMatches_ok (findAll text) [] hall⟩

/-- C10 witness: the ranges token scanned from a concrete citation parses
successfully. -/
theorem c10_parse_total_witness :
    ∃ L, parse_ranges (("John".data, "1-3".data).2) = Except.ok L :=
  (c10_parse_total ("John 1-3".data)).1 ("John".data, "1-3".data) (by decide)

end QuietTime
